import Mathlib

/-!
Shallow embedding of the browsing-history recommendation engine
(`recommend.py`): tokenizer, TF-IDF vector-space builder, cosine
similarity, interest aggregation, ranking, explanation and clustering,
plus the error paths of the driving pipeline.  Weights are modelled as
real numbers; Python dictionaries are modelled as association lists
(insertion order preserved, keys unique) or as finitely-updated
functions where only the final counts matter.
-/

namespace Recommend

/-- The fixed stop-word set from the module-level constant STOPWORDS. -/
def STOPWORDS : List String :=
  ["a", "an", "and", "are", "as", "at", "be", "but", "by", "for", "from", "has", "have",
   "if", "in", "into", "is", "it", "its", "of", "on", "or", "that", "the", "their", "there",
   "to", "was", "were", "will", "with", "you", "your"]

/-- A character matched by the token regex character class [a-z0-9]. -/
def isWordChar (c : Char) : Bool :=
  (97 ≤ c.toNat && c.toNat ≤ 122) || (48 ≤ c.toNat && c.toNat ≤ 57)

/-- Maximal runs of [a-z0-9] characters, scanned left to right; `acc`
holds the (reversed) characters of the run in progress.  This models
the non-overlapping greedy matches of the regex on the input. -/
def tokenRuns : List Char → List Char → List String
  | [], acc => if acc.isEmpty then [] else [String.mk acc.reverse]
  | c :: cs, acc =>
      if isWordChar c then tokenRuns cs (c :: acc)
      else if acc.isEmpty then tokenRuns cs []
      else String.mk acc.reverse :: tokenRuns cs []

/-- `tokenize(text)`: lower-case, take maximal [a-z0-9] runs of length
at least 3 (the regex `[a-z0-9]{3,}`), and drop stop-words. -/
def tokenize (text : String) : List String :=
  if text = "" then []
  else
    ((tokenRuns (text.data.map Char.toLower) []).filter
        (fun t => 3 ≤ t.length)).filter (fun t => t ∉ STOPWORDS)

/-- A structured document as produced by build_docs: the raw record
fields plus the derived host and token sequence. -/
structure Doc where
  id : Int
  url : String
  title : String
  visit_count : Int
  last_visit : Option Int
  host : String
  tokens : List String
deriving DecidableEq, Repr

def emptyDoc : Doc := ⟨0, "", "", 0, none, "", []⟩

/-- A Python dict from token to float weight, modelled as an
association list in insertion order with unique keys. -/
abbrev TermVector := List (String × ℝ)

/-- One step of the counting idiom d[t] = d.get(t, 0) + 1. -/
def bump (m : String → Nat) (t : String) : String → Nat :=
  fun s => if s = t then m t + 1 else m s

/-- Pass 1 of tfidf_vectors: document frequency, each document counted
at most once per token (the code iterates over set(doc tokens)). -/
def docFreq (docs : List Doc) : String → Nat :=
  docs.foldl (fun m doc => doc.tokens.dedup.foldl bump m) (fun _ => 0)

/-- Raw term frequency of a token within one document's token list. -/
def termFreq (tokens : List String) : String → Nat :=
  tokens.foldl bump (fun _ => 0)

/-- The key sequence of a Python dict built by repeated insertion:
first-occurrence order, no duplicates. -/
def dictKeys (tokens : List String) : List String :=
  tokens.foldl (fun l t => if t ∈ l then l else l ++ [t]) []

/-- The smoothed inverse document frequency from tfidf_vectors:
log((n + 1) / (1 + df)) + 1. -/
noncomputable def idf (docs : List Doc) (t : String) : ℝ :=
  Real.log (((docs.length : ℝ) + 1) / (1 + (docFreq docs t : ℝ))) + 1

/-- Pass 2 of tfidf_vectors for one document: the dict written by
iterating over tf.items() in insertion order. -/
noncomputable def docVector (docs : List Doc) (tokens : List String) : TermVector :=
  (dictKeys tokens).map (fun t => (t, (termFreq tokens t : ℝ) * idf docs t))

/-- tfidf_vectors(docs): one TermVector per document, in order. -/
noncomputable def tfidf_vectors (docs : List Doc) : List TermVector :=
  docs.map (fun d => docVector docs d.tokens)

/-- A small concrete document set used by witnesses. -/
def sampleDocs : List Doc := [⟨1, "u", "abc", 1, none, "h", ["abc"]⟩]

/-- The keys of an association-list dict, in order. -/
def keysOf (a : TermVector) : List String := a.map Prod.fst

/-- A real dict has unique keys. -/
def NodupKeys (a : TermVector) : Prop := (keysOf a).Nodup

/-- b.get(k, 0.0). -/
noncomputable def lookupD (b : TermVector) (t : String) : ℝ := (b.lookup t).getD 0

/-- The dot-product loop of cosine: sum over a's items of
v * b.get(k, 0.0). -/
noncomputable def dotv (a b : TermVector) : ℝ :=
  (a.map (fun p => p.2 * lookupD b p.1)).sum

/-- sum(v * v for v in a.values()). -/
noncomputable def normSq (a : TermVector) : ℝ :=
  (a.map (fun p => p.2 * p.2)).sum

/-- The Euclidean norm math.sqrt(sum(v * v for v in a.values())). -/
noncomputable def vnorm (a : TermVector) : ℝ := Real.sqrt (normSq a)

open Classical in
/-- cosine(a, b) exactly as in the code: 0 for an empty dict, 0 for a
zero norm, otherwise dot / (norm_a * norm_b). -/
noncomputable def cosine (a b : TermVector) : ℝ :=
  if a = [] ∨ b = [] then 0
  else if vnorm a = 0 ∨ vnorm b = 0 then 0
  else dotv a b / (vnorm a * vnorm b)

/-- The contribution-collecting loop of explain_doc: for each (token,
weight) of the candidate dict, in insertion order, keep
(weight * interest.get(token, 0.0), token) when positive. -/
noncomputable def contributionsOf (interest_vec doc_vec : TermVector) : List (ℝ × String) :=
  doc_vec.filterMap (fun p =>
    let c := p.2 * lookupD interest_vec p.1
    if 0 < c then some (c, p.1) else none)

/-- Python string comparison: lexicographic on code points, a proper
prefix compares smaller. -/
def charListLeb : List Char → List Char → Bool
  | [], _ => true
  | _ :: _, [] => false
  | a :: as, b :: bs => if a < b then true else if b < a then false else charListLeb as bs

/-- The descending order used by contributions.sort(reverse=True):
Python tuple comparison on (contrib, token), reversed. -/
def contribGE (a b : ℝ × String) : Prop :=
  b.1 < a.1 ∨ (b.1 = a.1 ∧ charListLeb b.2.data a.2.data = true)

noncomputable instance : DecidableRel contribGE := fun _ _ => instDecidableOr

/-- explain_doc(interest_vec, doc_vec, topn), with the sort modelled by
the (unique) sorted-by-contribGE permutation of the contributions. -/
noncomputable def explain_doc (interest_vec doc_vec : TermVector) (topn : Int) : List String :=
  if topn ≤ 0 then []
  else
    ((List.insertionSort contribGE (contributionsOf interest_vec doc_vec)).map
      Prod.snd).take topn.toNat

/-- The scoring loop of main: score each older candidate by cosine
against the interest vector and skip non-positive scores. -/
noncomputable def scoreCandidates (interest : TermVector)
    (cands : List (TermVector × Doc)) : List (ℝ × Doc) :=
  cands.filterMap (fun p =>
    let s := cosine interest p.1
    if 0 < s then some (s, p.2) else none)

/-- The total order realising scored.sort(key score, reverse=True): a
stable descending sort equals the sort by (score descending, original
position ascending) on index-decorated items. -/
def rankRel (a b : ℕ × (ℝ × Doc)) : Prop :=
  b.2.1 < a.2.1 ∨ (b.2.1 = a.2.1 ∧ a.1 ≤ b.1)

noncomputable instance : DecidableRel rankRel := fun _ _ => instDecidableOr

instance : IsTotal (ℕ × (ℝ × Doc)) rankRel := by
  constructor
  intro a b
  rcases lt_trichotomy a.2.1 b.2.1 with h | h | h
  · exact Or.inr (Or.inl h)
  · rcases Nat.le_total a.1 b.1 with h2 | h2
    · exact Or.inl (Or.inr ⟨h.symm, h2⟩)
    · exact Or.inr (Or.inr ⟨h, h2⟩)
  · exact Or.inl (Or.inl h)

instance : IsTrans (ℕ × (ℝ × Doc)) rankRel := by
  constructor
  intro a b c hab hbc
  rcases hab with h1 | ⟨h1, h1'⟩ <;> rcases hbc with h2 | ⟨h2, h2'⟩
  · exact Or.inl (lt_trans h2 h1)
  · exact Or.inl (h2 ▸ h1)
  · exact Or.inl (h1 ▸ h2)
  · exact Or.inr ⟨h2.trans h1, h1'.trans h2'⟩

/-- The ranking stage: filter to positive scores, then the stable
descending sort of scored (modelled on index-decorated items). -/
noncomputable def rank (interest : TermVector)
    (cands : List (TermVector × Doc)) : List (ℝ × Doc) :=
  (List.insertionSort rankRel (scoreCandidates interest cands).enum).map Prod.snd

/-- A formatted result row: the fields of format_row that matter to
clustering, plus the cluster label added in main. -/
structure ResultRow where
  score : ℝ
  doc : Doc
  why_tokens : List String
  cluster : String

/-- The cluster-label assignment of main:
why_tokens[0] if (cluster_enabled and why_tokens) else (host or "other"). -/
def clusterLabel (cluster_enabled : Bool) (why_tokens : List String) (host : String) : String :=
  if cluster_enabled = true ∧ why_tokens ≠ [] then why_tokens.headI
  else if host = "" then "other" else host

/-- The rows of one cluster, in result order. -/
def clusterMembers (rows : List ResultRow) (name : String) : List ResultRow :=
  rows.filter (fun r => r.cluster == name)

/-- All explanation-token occurrences across a cluster's members, in
iteration order (multiplicity preserved, as in the counting loop). -/
def clusterTokenOccurrences (rows : List ResultRow) (name : String) : List String :=
  ((clusterMembers rows name).map (fun r => r.why_tokens)).flatten

/-- The order realising sorted(key=lambda x: (-x[1], x[0])): frequency
descending, then token text ascending. -/
def tokLE (f : String → ℕ) (a b : String) : Prop :=
  f b < f a ∨ (f b = f a ∧ charListLeb a.data b.data = true)

instance (f : String → ℕ) : DecidableRel (tokLE f) := fun _ _ => instDecidableOr

/-- build_cluster_summary for one cluster name: member count, and the
top-n tokens after sorting the token counts by (-count, token). -/
def summaryFor (rows : List ResultRow) (topn : ℕ) (name : String) : ℕ × List String :=
  let toks := clusterTokenOccurrences rows name
  ((clusterMembers rows name).length,
    (List.insertionSort (tokLE (fun t => toks.count t)) (dictKeys toks)).take topn)

/-- One dict update of the aggregation loop:
agg[k] = agg.get(k, 0.0) + v * w (default weight 1.0). -/
noncomputable def addWeighted (agg : TermVector) (k : String) (x : ℝ) : TermVector :=
  match agg.lookup k with
  | some w => agg.map (fun q => if q.1 = k then (q.1, w + x) else q)
  | none => agg ++ [(k, x)]

/-- aggregate_vector(vectors) with the default weight 1.0 per vector,
as called from main. -/
noncomputable def aggregate_vector (vectors : List TermVector) : TermVector :=
  vectors.foldl (fun agg vec => vec.foldl (fun a p => addWeighted a p.1 p.2) agg) []

/-- doc_index: id to position, later entries overwriting earlier ones
as in dict comprehension semantics. -/
def docIndex (docs : List Doc) : Int → ℕ :=
  docs.enum.foldl (fun m p => fun j => if j = p.2.id then p.1 else m j) (fun _ => 0)

/-- vectors[doc_index[d id]]. -/
noncomputable def vecFor (docs : List Doc) (d : Doc) : TermVector :=
  (tfidf_vectors docs).getD (docIndex docs d.id) []

/-- The argparse parameters that reach the core pipeline. -/
structure Args where
  limit : Int
  recent_days : Int
  min_visits : Int
  dedupe_host : Bool
  explain_top : Int
  no_cluster : Bool
deriving Repr

/-- The argparse defaults. -/
def defaultArgs : Args := ⟨15, 14, 1, false, 5, false⟩

def usPerDay : Int := 86400000000

/-- The filtering stage of main: the min-visits pass, then the
caller-supplied predicate covering the since window and the
reading-candidate host/pattern exclusions. -/
def filteredDocs (docs0 : List Doc) (keep : Doc → Bool) (args : Args) : List Doc :=
  (docs0.filter (fun d => args.min_visits ≤ d.visit_count)).filter keep

/-- Documents whose last visit exists and is on or after the cutoff
now - recent_days. -/
def recentDocs (docs : List Doc) (args : Args) (now : Int) : List Doc :=
  docs.filter (fun d =>
    (d.last_visit.map (fun t => decide (now - args.recent_days * usPerDay ≤ t))).getD false)

/-- Documents with no last visit or one strictly before the cutoff. -/
def olderDocs (docs : List Doc) (args : Args) (now : Int) : List Doc :=
  docs.filter (fun d =>
    (d.last_visit.map (fun t => decide (t < now - args.recent_days * usPerDay))).getD true)

/-- The result-building loop of main: skip already-seen hosts when
deduping, record each kept row with its explanation, and stop once
the limit is reached (checked after appending, as in the code). -/
noncomputable def buildResults (interest : TermVector) (vecOf : Doc → TermVector)
    (dedupe_host : Bool) (limit explain_top : Int) :
    List (ℝ × Doc) → List String → Int → List ResultRow
  | [], _, _ => []
  | (s, d) :: rest, seen, count =>
      if dedupe_host = true ∧ d.host ∈ seen then
        buildResults interest vecOf dedupe_host limit explain_top rest seen count
      else
        let r : ResultRow := ⟨s, d, explain_doc interest (vecOf d) explain_top, ""⟩
        if limit ≤ count + 1 then [r]
        else
          r :: buildResults interest vecOf dedupe_host limit explain_top rest
            (d.host :: seen) (count + 1)

/-- The scoring-through-selection phase of main on the filtered set. -/
noncomputable def resultsOf (docs : List Doc) (args : Args) (now : Int) : List ResultRow :=
  let interest := aggregate_vector ((recentDocs docs args now).map (vecFor docs))
  buildResults interest (vecFor docs) args.dedupe_host args.limit args.explain_top
    (rank interest ((olderDocs docs args now).map (fun d => (vecFor docs d, d)))) [] 0

/-- The full pipeline from built documents to ranked, cluster-labelled
rows, with now supplied explicitly; each empty stage surfaces its own
terminal error message, exactly as in main. -/
noncomputable def pipeline (docs0 : List Doc) (keep : Doc → Bool) (args : Args)
    (now : Int) : Except String (List ResultRow) :=
  let docs := filteredDocs docs0 keep args
  if docs.isEmpty then Except.error "No history rows after filtering."
  else if (recentDocs docs args now).isEmpty then
    Except.error "Not enough recent history to build an interest profile."
  else
    let results := resultsOf docs args now
    if results.isEmpty then Except.error "No recommendations found."
    else
      Except.ok (results.map (fun r =>
        { r with cluster := clusterLabel (!args.no_cluster) r.why_tokens r.doc.host }))

theorem tokenRuns_chars (cs : List Char) :
    ∀ acc, (∀ c ∈ acc, isWordChar c) →
      ∀ t ∈ tokenRuns cs acc, ∀ c ∈ t.data, isWordChar c := by
  induction cs with
  | nil =>
      intro acc hacc t ht c hc
      unfold tokenRuns at ht
      split at ht
      · simp at ht
      · rcases List.mem_singleton.mp ht with rfl
        exact hacc c (List.mem_reverse.mp hc)
  | cons d ds ih =>
      intro acc hacc t ht c hc
      unfold tokenRuns at ht
      split at ht
      case isTrue hw =>
        refine ih (d :: acc) ?_ t ht c hc
        intro x hx
        rcases List.mem_cons.mp hx with hx | hx
        · subst hx; exact hw
        · exact hacc x hx
      case isFalse hw =>
        split at ht
        · exact ih [] (by intro x hx; simp at hx) t ht c hc
        · rcases List.mem_cons.mp ht with rfl | ht
          · exact hacc c (List.mem_reverse.mp hc)
          · exact ih [] (by intro x hx; simp at hx) t ht c hc

/-- C7: `tokenize` lower-cases its input, extracts the maximal
[a-z0-9] runs of length at least 3 in order, and discards stop-words;
empty input yields the empty sequence; on "The Quick Fox runs!" it
returns exactly ["quick", "fox", "runs"]. -/
theorem C7_tokenize :
    tokenize "" = [] ∧
    tokenize "The Quick Fox runs!" = ["quick", "fox", "runs"] ∧
    ∀ s : String, ∀ t ∈ tokenize s,
      3 ≤ t.length ∧ t ∉ STOPWORDS ∧ ∀ c ∈ t.data, isWordChar c := by
  refine ⟨rfl, by decide, ?_⟩
  intro s t ht
  by_cases hs : s = ""
  · simp [tokenize, hs] at ht
  · simp only [tokenize, hs, if_false] at ht
    have h2 := List.mem_filter.mp ht
    have h1 := List.mem_filter.mp h2.1
    refine ⟨by simpa using h1.2, by simpa using h2.2, ?_⟩
    exact tokenRuns_chars _ [] (by intro c hc; simp at hc) t h1.1

/-- Witness for C7 at a concrete token of a concrete input. -/
theorem C7_tokenize_witness :
    "quick" ∈ tokenize "The Quick Fox runs!" ∧
      (3 ≤ "quick".length ∧ "quick" ∉ STOPWORDS ∧
        ∀ c ∈ "quick".data, isWordChar c) :=
  ⟨by decide, C7_tokenize.2.2 "The Quick Fox runs!" "quick" (by decide)⟩

theorem foldl_bump_apply (l : List String) :
    ∀ (m : String → Nat) (t : String), l.foldl bump m t = m t + l.count t := by
  induction l with
  | nil => intro m t; simp
  | cons s l ih =>
      intro m t
      rw [List.foldl_cons, ih]
      by_cases h : t = s
      · subst h
        have hb : bump m t t = m t + 1 := by simp [bump]
        rw [hb, List.count_cons_self]
        omega
      · have hb : bump m s t = m t := by simp [bump, h]
        rw [hb, List.count_cons_of_ne h]

theorem termFreq_eq_count (tokens : List String) (t : String) :
    termFreq tokens t = tokens.count t := by
  rw [termFreq, foldl_bump_apply]
  omega

theorem docFreq_eq_countP (docs : List Doc) (t : String) :
    docFreq docs t = docs.countP (fun d => decide (t ∈ d.tokens)) := by
  suffices h : ∀ (m : String → Nat),
      (docs.foldl (fun m doc => doc.tokens.dedup.foldl bump m) m) t =
        m t + docs.countP (fun d => decide (t ∈ d.tokens)) by
    simpa using h (fun _ => 0)
  induction docs with
  | nil => intro m; simp
  | cons d ds ih =>
      intro m
      rw [List.foldl_cons, ih, foldl_bump_apply, List.countP_cons]
      by_cases h : t ∈ d.tokens
      · rw [List.count_eq_one_of_mem (List.nodup_dedup _) (List.mem_dedup.mpr h)]
        simp [h]; omega
      · rw [List.count_eq_zero_of_not_mem (fun hc => h (List.mem_dedup.mp hc))]
        simp [h]

theorem mem_dictKeys (tokens : List String) (t : String) :
    t ∈ dictKeys tokens ↔ t ∈ tokens := by
  suffices h : ∀ (acc : List String),
      t ∈ tokens.foldl (fun l s => if s ∈ l then l else l ++ [s]) acc ↔
        t ∈ acc ∨ t ∈ tokens by
    simpa [dictKeys] using h []
  induction tokens with
  | nil => intro acc; simp
  | cons s ts ih =>
      intro acc
      rw [List.foldl_cons, ih]
      by_cases h : s ∈ acc
      · simp only [h, if_true, List.mem_cons]
        constructor
        · rintro (ht | ht)
          · exact Or.inl ht
          · exact Or.inr (Or.inr ht)
        · rintro (ht | rfl | ht)
          · exact Or.inl ht
          · exact Or.inl h
          · exact Or.inr ht
      · simp only [h, if_false, List.mem_append, List.mem_singleton, List.mem_cons]
        tauto

theorem lookup_map_keys (f : String → ℝ) (t : String) :
    ∀ (keys : List String), t ∈ keys →
      (keys.map (fun s => (s, f s))).lookup t = some (f t) := by
  intro keys
  induction keys with
  | nil => intro h; simp at h
  | cons k ks ih =>
      intro h
      by_cases hk : t = k
      · subst hk; simp [List.lookup]
      · have : t ∈ ks := by
          rcases List.mem_cons.mp h with h' | h'
          · exact absurd h' hk
          · exact h'
        have hbeq : (t == k) = false := beq_false_of_ne hk
        simp [List.lookup, hbeq, ih this]

/-- C1: tfidf_vectors returns one vector per document in order, and
the i-th vector maps each token t of document i to
count(t) * (log((N + 1) / (1 + df(t))) + 1), where df counts each
document containing t at most once. -/
theorem C1_tfidf_vectors (docs : List Doc) :
    (tfidf_vectors docs).length = docs.length ∧
    ∀ i, i < docs.length → ∀ t ∈ (docs.getD i emptyDoc).tokens,
      ((tfidf_vectors docs).getD i []).lookup t =
        some (((docs.getD i emptyDoc).tokens.count t : ℝ) *
          (Real.log (((docs.length : ℝ) + 1) /
            (1 + (docs.countP (fun d => decide (t ∈ d.tokens)) : ℝ))) + 1)) := by
  constructor
  · simp [tfidf_vectors]
  · intro i hi t ht
    have hv : (tfidf_vectors docs).getD i [] =
        docVector docs (docs.getD i emptyDoc).tokens := by
      rw [List.getD_eq_getElem docs emptyDoc hi,
        List.getD_eq_getElem _ [] (by simpa [tfidf_vectors] using hi)]
      simp [tfidf_vectors]
    rw [hv, docVector,
      lookup_map_keys _ t _ ((mem_dictKeys _ t).mpr ht),
      termFreq_eq_count, idf, docFreq_eq_countP]

/-- Witness for C1 at a one-document set and its only token. -/
theorem C1_witness :
    (tfidf_vectors sampleDocs).length = sampleDocs.length ∧
    ((tfidf_vectors sampleDocs).getD 0 []).lookup "abc" =
      some (((sampleDocs.getD 0 emptyDoc).tokens.count "abc" : ℝ) *
        (Real.log (((sampleDocs.length : ℝ) + 1) /
          (1 + (sampleDocs.countP (fun d => decide ("abc" ∈ d.tokens)) : ℝ))) + 1)) :=
  ⟨(C1_tfidf_vectors sampleDocs).1,
    (C1_tfidf_vectors sampleDocs).2 0 (by decide) "abc" (by decide)⟩

/-- C10: every weight stored in any vector returned by tfidf_vectors
is strictly positive. -/
theorem C10_tfidf_positive (docs : List Doc) :
    ∀ v ∈ tfidf_vectors docs, ∀ p ∈ v, 0 < p.2 := by
  intro v hv p hp
  rcases List.mem_map.mp hv with ⟨d, _, rfl⟩
  rcases List.mem_map.mp hp with ⟨t, htk, rfl⟩
  have ht : t ∈ d.tokens := (mem_dictKeys _ t).mp htk
  have htf : 1 ≤ termFreq d.tokens t := by
    rw [termFreq_eq_count]
    exact List.count_pos_iff.mpr ht
  have htf' : (1 : ℝ) ≤ (termFreq d.tokens t : ℝ) := by exact_mod_cast htf
  have hdf : docFreq docs t ≤ docs.length := by
    rw [docFreq_eq_countP]
    exact List.countP_le_length _
  have hdf' : (docFreq docs t : ℝ) ≤ (docs.length : ℝ) := by exact_mod_cast hdf
  have hden : (0 : ℝ) < 1 + (docFreq docs t : ℝ) := by positivity
  have harg : (1 : ℝ) ≤ ((docs.length : ℝ) + 1) / (1 + (docFreq docs t : ℝ)) := by
    rw [le_div_iff₀ hden]
    linarith
  have hidf : (1 : ℝ) ≤ idf docs t := by
    have := Real.log_nonneg harg
    rw [idf]; linarith
  have : (0 : ℝ) < (termFreq d.tokens t : ℝ) := lt_of_lt_of_le one_pos htf'
  calc (0 : ℝ) < (termFreq d.tokens t : ℝ) * 1 := by linarith
    _ ≤ (termFreq d.tokens t : ℝ) * idf docs t :=
        mul_le_mul_of_nonneg_left hidf (le_of_lt this)

/-- Witness for C10 at a concrete stored weight. -/
theorem C10_witness :
    0 < (("abc", ((termFreq ["abc"] "abc" : ℕ) : ℝ) * idf sampleDocs "abc") : String × ℝ).2 :=
  C10_tfidf_positive sampleDocs (docVector sampleDocs ["abc"])
    (by simp [tfidf_vectors, sampleDocs])
    ("abc", ((termFreq ["abc"] "abc" : ℕ) : ℝ) * idf sampleDocs "abc")
    (by simp [docVector, dictKeys])

theorem lookup_mem (t : String) (w : ℝ) :
    ∀ (b : TermVector), b.lookup t = some w → (t, w) ∈ b := by
  intro b
  induction b with
  | nil => intro h; simp at h
  | cons q rest ih =>
      rcases q with ⟨k, u⟩
      intro h
      rw [List.lookup_cons] at h
      by_cases hk : t = k
      · subst hk
        simp only [beq_self_eq_true] at h
        rcases Option.some.inj h with rfl
        exact List.mem_cons_self _ _
      · rw [beq_false_of_ne hk] at h
        exact List.mem_cons_of_mem _ (ih h)

theorem lookup_eq_of_nodupKeys {b : TermVector} (hb : NodupKeys b)
    {t : String} {w : ℝ} (hmem : (t, w) ∈ b) : b.lookup t = some w := by
  induction b with
  | nil => simp at hmem
  | cons q rest ih =>
      rcases List.mem_cons.mp hmem with rfl | hmem'
      · exact List.lookup_cons_self
      · have hq : q.1 ∉ keysOf rest := by
          have := (List.nodup_cons.mp hb).1
          simpa [keysOf] using this
        have ht : t ≠ q.1 := by
          rintro rfl
          exact hq (List.mem_map.mpr ⟨(q.1, w), hmem', rfl⟩)
        have hrest : NodupKeys rest := (List.nodup_cons.mp hb).2
        rcases q with ⟨k, u⟩
        rw [List.lookup_cons, beq_false_of_ne ht]
        exact ih hrest hmem'

theorem lookup_eq_none_of_not_mem_keys {b : TermVector} {t : String}
    (h : t ∉ keysOf b) : b.lookup t = none := by
  induction b with
  | nil => simp [List.lookup]
  | cons q rest ih =>
      have h1 : t ≠ q.1 := fun he => h (by simp [keysOf, he])
      have h2 : t ∉ keysOf rest := fun he => h (by simp [keysOf] at he ⊢; tauto)
      rcases q with ⟨k, u⟩
      rw [List.lookup_cons, beq_false_of_ne h1]
      exact ih h2

theorem lookupD_nonneg {b : TermVector} (hb : ∀ p ∈ b, 0 ≤ p.2) (t : String) :
    0 ≤ lookupD b t := by
  rw [lookupD]
  cases h : b.lookup t with
  | none => simp
  | some w => simpa using hb (t, w) (lookup_mem t w b h)

theorem lookupD_eq_of_mem {b : TermVector} (hb : NodupKeys b)
    {t : String} {w : ℝ} (hmem : (t, w) ∈ b) : lookupD b t = w := by
  rw [lookupD, lookup_eq_of_nodupKeys hb hmem]
  rfl

theorem lookupD_eq_zero_of_not_mem_keys {b : TermVector} {t : String}
    (h : t ∉ keysOf b) : lookupD b t = 0 := by
  rw [lookupD, lookup_eq_none_of_not_mem_keys h]
  rfl

theorem normSq_eq_finset_sum {a : TermVector} (ha : NodupKeys a) :
    normSq a = ∑ t ∈ (keysOf a).toFinset, lookupD a t ^ 2 := by
  rw [List.sum_toFinset _ ha, keysOf, List.map_map, normSq]
  refine congrArg List.sum (List.map_congr_left ?_)
  intro p hp
  have : lookupD a p.1 = p.2 := lookupD_eq_of_mem ha hp
  simp [Function.comp, this, pow_two]

theorem dotv_eq_finset_sum {a : TermVector} (ha : NodupKeys a) (b : TermVector) :
    dotv a b = ∑ t ∈ (keysOf a).toFinset, lookupD a t * lookupD b t := by
  rw [List.sum_toFinset _ ha, keysOf, List.map_map, dotv]
  refine congrArg List.sum (List.map_congr_left ?_)
  intro p hp
  have : lookupD a p.1 = p.2 := lookupD_eq_of_mem ha hp
  simp [Function.comp, this]

theorem normSq_nonneg (a : TermVector) : 0 ≤ normSq a := by
  rw [normSq]
  refine List.sum_nonneg ?_
  intro x hx
  rcases List.mem_map.mp hx with ⟨p, _, rfl⟩
  exact mul_self_nonneg _

theorem dotv_le_vnorm_mul_vnorm {a b : TermVector}
    (ha : NodupKeys a) (hb : NodupKeys b) :
    dotv a b ≤ vnorm a * vnorm b := by
  set s := (keysOf a).toFinset ∪ (keysOf b).toFinset with hs
  have hdot : dotv a b = ∑ t ∈ s, lookupD a t * lookupD b t := by
    rw [dotv_eq_finset_sum ha b]
    refine Finset.sum_subset (Finset.subset_union_left) ?_
    intro t _ hta
    have : t ∉ keysOf a := fun hc => hta (List.mem_toFinset.mpr hc)
    rw [lookupD_eq_zero_of_not_mem_keys this, zero_mul]
  have hna : normSq a = ∑ t ∈ s, lookupD a t ^ 2 := by
    rw [normSq_eq_finset_sum ha]
    refine Finset.sum_subset (Finset.subset_union_left) ?_
    intro t _ hta
    have : t ∉ keysOf a := fun hc => hta (List.mem_toFinset.mpr hc)
    rw [lookupD_eq_zero_of_not_mem_keys this]
    norm_num
  have hnb : normSq b = ∑ t ∈ s, lookupD b t ^ 2 := by
    rw [normSq_eq_finset_sum hb]
    refine Finset.sum_subset (Finset.subset_union_right) ?_
    intro t _ htb
    have : t ∉ keysOf b := fun hc => htb (List.mem_toFinset.mpr hc)
    rw [lookupD_eq_zero_of_not_mem_keys this]
    norm_num
  rw [hdot, vnorm, vnorm, hna, hnb]
  exact Real.sum_mul_le_sqrt_mul_sqrt s _ _

theorem dotv_nonneg {a b : TermVector}
    (ha : ∀ p ∈ a, 0 ≤ p.2) (hb : ∀ p ∈ b, 0 ≤ p.2) : 0 ≤ dotv a b := by
  rw [dotv]
  refine List.sum_nonneg ?_
  intro x hx
  rcases List.mem_map.mp hx with ⟨p, hp, rfl⟩
  exact mul_nonneg (ha p hp) (lookupD_nonneg hb p.1)

/-- C4: with unique keys and non-negative weights, cosine lies in
[0, 1]; it is 0 for an empty vector, a zero-norm vector, or disjoint
token sets; otherwise it is the dot product over the product of the
Euclidean norms. -/
theorem C4_cosine (a b : TermVector)
    (hka : NodupKeys a) (hkb : NodupKeys b)
    (ha : ∀ p ∈ a, 0 ≤ p.2) (hb : ∀ p ∈ b, 0 ≤ p.2) :
    (0 ≤ cosine a b ∧ cosine a b ≤ 1) ∧
    ((a = [] ∨ b = []) → cosine a b = 0) ∧
    ((vnorm a = 0 ∨ vnorm b = 0) → cosine a b = 0) ∧
    ((∀ p ∈ a, b.lookup p.1 = none) → cosine a b = 0) ∧
    (a ≠ [] → b ≠ [] → vnorm a ≠ 0 → vnorm b ≠ 0 →
      cosine a b = dotv a b / (vnorm a * vnorm b)) := by
  have hbound : 0 ≤ cosine a b ∧ cosine a b ≤ 1 := by
    rw [cosine]
    by_cases h1 : a = [] ∨ b = []
    · rw [if_pos h1]; norm_num
    · rw [if_neg h1]
      by_cases h2 : vnorm a = 0 ∨ vnorm b = 0
      · rw [if_pos h2]; norm_num
      · rw [if_neg h2]
        push_neg at h2
        have hva : 0 < vnorm a := lt_of_le_of_ne (Real.sqrt_nonneg _) (Ne.symm h2.1)
        have hvb : 0 < vnorm b := lt_of_le_of_ne (Real.sqrt_nonneg _) (Ne.symm h2.2)
        constructor
        · exact div_nonneg (dotv_nonneg ha hb) (le_of_lt (mul_pos hva hvb))
        · rw [div_le_one (mul_pos hva hvb)]
          exact dotv_le_vnorm_mul_vnorm hka hkb
  refine ⟨hbound, ?_, ?_, ?_, ?_⟩
  · intro h; rw [cosine, if_pos h]
  · intro h
    rw [cosine]
    by_cases h1 : a = [] ∨ b = []
    · rw [if_pos h1]
    · rw [if_neg h1, if_pos h]
  · intro h
    have hdot : dotv a b = 0 := by
      rw [dotv]
      have : a.map (fun p => p.2 * lookupD b p.1) = a.map (fun _ => (0 : ℝ)) := by
        refine List.map_congr_left ?_
        intro p hp
        rw [lookupD, h p hp]
        simp
      rw [this]
      simp
    rw [cosine]
    by_cases h1 : a = [] ∨ b = []
    · rw [if_pos h1]
    · rw [if_neg h1]
      by_cases h2 : vnorm a = 0 ∨ vnorm b = 0
      · rw [if_pos h2]
      · rw [if_neg h2, hdot, zero_div]
  · intro h1 h2 h3 h4
    rw [cosine, if_neg (by tauto), if_neg (by tauto)]

/-- Witness for C4 at two concrete one-token vectors. -/
theorem C4_witness :
    (0 ≤ cosine [("x", 1)] [("x", 1)] ∧ cosine [("x", 1)] [("x", 1)] ≤ 1) ∧
    (([("x", (1 : ℝ))] = [] ∨ [("x", (1 : ℝ))] = []) → cosine [("x", 1)] [("x", 1)] = 0) ∧
    ((vnorm [("x", 1)] = 0 ∨ vnorm [("x", 1)] = 0) → cosine [("x", 1)] [("x", 1)] = 0) ∧
    ((∀ p ∈ ([("x", (1 : ℝ))] : TermVector), List.lookup p.1 [("x", (1 : ℝ))] = none) →
      cosine [("x", 1)] [("x", 1)] = 0) ∧
    ([("x", (1 : ℝ))] ≠ [] → [("x", (1 : ℝ))] ≠ [] →
      vnorm [("x", 1)] ≠ 0 → vnorm [("x", 1)] ≠ 0 →
      cosine [("x", 1)] [("x", 1)] =
        dotv [("x", 1)] [("x", 1)] / (vnorm [("x", 1)] * vnorm [("x", 1)])) :=
  C4_cosine [("x", 1)] [("x", 1)]
    (by simp [NodupKeys, keysOf]) (by simp [NodupKeys, keysOf])
    (by intro p hp; rcases List.mem_singleton.mp hp with rfl; norm_num)
    (by intro p hp; rcases List.mem_singleton.mp hp with rfl; norm_num)

theorem cosine_self_eq_one (v : TermVector) (hk : NodupKeys v)
    (hnz : ∃ p ∈ v, p.2 ≠ 0) : cosine v v = 1 := by
  rcases hnz with ⟨p0, hp0, hw0⟩
  have hne : v ≠ [] := by rintro rfl; simp at hp0
  have hpos : 0 < normSq v := by
    have hmem : p0.2 * p0.2 ∈ v.map (fun p => p.2 * p.2) :=
      List.mem_map.mpr ⟨p0, hp0, rfl⟩
    have hle : p0.2 * p0.2 ≤ normSq v := by
      rw [normSq]
      refine List.single_le_sum ?_ _ hmem
      intro x hx
      rcases List.mem_map.mp hx with ⟨q, _, rfl⟩
      exact mul_self_nonneg _
    exact lt_of_lt_of_le (mul_self_pos.mpr hw0) hle
  have hvn : 0 < vnorm v := by
    rw [vnorm]
    exact Real.sqrt_pos.mpr hpos
  have hdot : dotv v v = normSq v := by
    rw [dotv, normSq]
    refine congrArg List.sum (List.map_congr_left ?_)
    intro p hp
    rw [lookupD_eq_of_mem hk hp]
  rw [cosine, if_neg (by tauto), if_neg (by push_neg; exact ⟨ne_of_gt hvn, ne_of_gt hvn⟩),
    hdot, vnorm, Real.mul_self_sqrt (normSq_nonneg v), div_self (ne_of_gt hpos)]

/-- C9: cosine of a non-zero vector with itself is 1. -/
theorem C9_cosine_self (v : TermVector) (hk : NodupKeys v)
    (hnz : ∃ p ∈ v, p.2 ≠ 0) : cosine v v = 1 :=
  cosine_self_eq_one v hk hnz

/-- Witness for C9 at a concrete non-zero vector. -/
theorem C9_witness : cosine [("x", 2)] [("x", 2)] = 1 :=
  C9_cosine_self [("x", 2)] (by simp [NodupKeys, keysOf])
    ⟨("x", 2), by simp, by norm_num⟩

theorem charListLeb_total : ∀ x y, charListLeb x y = true ∨ charListLeb y x = true := by
  intro x
  induction x with
  | nil => intro y; exact Or.inl rfl
  | cons a as ih =>
      intro y
      cases y with
      | nil => exact Or.inr rfl
      | cons b bs =>
          rcases lt_trichotomy a b with h | h | h
          · left
            simp [charListLeb, h]
          · subst h
            rcases ih bs with h2 | h2
            · left; simp [charListLeb, h2]
            · right; simp [charListLeb, h2]
          · right
            simp [charListLeb, h]

theorem charListLeb_trans :
    ∀ x y z, charListLeb x y = true → charListLeb y z = true → charListLeb x z = true := by
  intro x
  induction x with
  | nil => intro y z _ _; rfl
  | cons a as ih =>
      intro y z hxy hyz
      cases y with
      | nil => simp [charListLeb] at hxy
      | cons b bs =>
          cases z with
          | nil => simp [charListLeb] at hyz
          | cons c cs =>
              rcases lt_trichotomy a b with hab | hab | hab
              · rcases lt_trichotomy b c with hbc | hbc | hbc
                · have : a < c := lt_trans hab hbc
                  simp [charListLeb, this]
                · subst hbc
                  simp [charListLeb, hab]
                · simp [charListLeb, not_lt_of_gt hbc, hbc] at hyz
              · subst hab
                rcases lt_trichotomy a c with hac | hac | hac
                · simp [charListLeb, hac]
                · subst hac
                  simp only [charListLeb, lt_irrefl, if_neg (lt_irrefl a), if_false] at hxy hyz ⊢
                  exact ih _ _ hxy hyz
                · simp [charListLeb, not_lt_of_gt hac, hac] at hyz
              · simp [charListLeb, not_lt_of_gt hab, hab] at hxy

theorem contribGE_isTotal : IsTotal (ℝ × String) contribGE := by
  constructor
  intro a b
  rcases lt_trichotomy a.1 b.1 with h | h | h
  · exact Or.inr (Or.inl h)
  · rcases charListLeb_total b.2.data a.2.data with h2 | h2
    · exact Or.inl (Or.inr ⟨h.symm, h2⟩)
    · exact Or.inr (Or.inr ⟨h, h2⟩)
  · exact Or.inl (Or.inl h)

theorem contribGE_isTrans : IsTrans (ℝ × String) contribGE := by
  constructor
  intro a b c hab hbc
  rcases hab with h1 | ⟨h1, h1'⟩ <;> rcases hbc with h2 | ⟨h2, h2'⟩
  · exact Or.inl (lt_trans h2 h1)
  · exact Or.inl (h2 ▸ h1)
  · exact Or.inl (h1 ▸ h2)
  · exact Or.inr ⟨h2.trans h1, charListLeb_trans _ _ _ h2' h1'⟩

theorem tokLE_isTotal (f : String → ℕ) : IsTotal String (tokLE f) := by
  constructor
  intro a b
  rcases lt_trichotomy (f a) (f b) with h | h | h
  · exact Or.inr (Or.inl h)
  · rcases charListLeb_total a.data b.data with h2 | h2
    · exact Or.inl (Or.inr ⟨h.symm, h2⟩)
    · exact Or.inr (Or.inr ⟨h, h2⟩)
  · exact Or.inl (Or.inl h)

theorem tokLE_isTrans (f : String → ℕ) : IsTrans String (tokLE f) := by
  constructor
  intro a b c hab hbc
  rcases hab with h1 | ⟨h1, h1'⟩ <;> rcases hbc with h2 | ⟨h2, h2'⟩
  · exact Or.inl (lt_trans h2 h1)
  · exact Or.inl (h2 ▸ h1)
  · exact Or.inl (h1 ▸ h2)
  · exact Or.inr ⟨h2.trans h1, charListLeb_trans _ _ _ h1' h2'⟩

/-- C2 (counterexample): with two tokens of equal positive product
inserted in order "aa" then "bb", explain_doc returns ["bb", "aa"]
(token text descending), not the insertion order ["aa", "bb"]. -/
theorem C2_counterexample :
    explain_doc [("aa", 1), ("bb", 1)] [("aa", 1), ("bb", 1)] 2 = ["bb", "aa"] ∧
    explain_doc [("aa", 1), ("bb", 1)] [("aa", 1), ("bb", 1)] 2 ≠ ["aa", "bb"] := by
  have heval : explain_doc [("aa", 1), ("bb", 1)] [("aa", 1), ("bb", 1)] 2 = ["bb", "aa"] := by
    have h2 : ¬((2 : Int) ≤ 0) := by norm_num
    rw [explain_doc, if_neg h2]
    have hc : contributionsOf [("aa", 1), ("bb", 1)] [("aa", 1), ("bb", 1)] =
        [(1, "aa"), (1, "bb")] := by
      rw [contributionsOf]
      have ha : lookupD [("aa", (1 : ℝ)), ("bb", 1)] "aa" = 1 := by
        simp [lookupD, List.lookup]
      have hb : lookupD [("aa", (1 : ℝ)), ("bb", 1)] "bb" = 1 := by
        simp [lookupD, List.lookup]
      simp only [List.filterMap_cons, List.filterMap_nil, ha, hb]
      norm_num
    rw [hc]
    have hga : ¬ contribGE (1, "aa") (1, "bb") := by
      rintro (h | ⟨-, h'⟩)
      · exact lt_irrefl _ h
      · exact absurd h' (by decide)
    simp only [List.insertionSort, List.orderedInsert, if_neg hga]
    rfl
  refine ⟨heval, ?_⟩
  rw [heval]
  decide

/-- C2 (amended): explain_doc yields the empty sequence for
topn ≤ 0, never more than topn tokens, and exactly the positive
product tokens in descending product order with ties broken by token
text descending (Python tuple comparison), the take applied to the
sorted-permutation characterization. -/
theorem C2_explain_doc (i d : TermVector) (topn : Int) :
    (topn ≤ 0 → explain_doc i d topn = []) ∧
    (explain_doc i d topn).length ≤ topn.toNat ∧
    ∃ l : List (ℝ × String), l.Perm (contributionsOf i d) ∧
      List.Sorted contribGE l ∧
      explain_doc i d topn = (l.map Prod.snd).take topn.toNat := by
  haveI := contribGE_isTotal
  haveI := contribGE_isTrans
  refine ⟨?_, ?_, ?_⟩
  · intro h; rw [explain_doc, if_pos h]
  · rw [explain_doc]
    by_cases h : topn ≤ 0
    · rw [if_pos h]; simp
    · rw [if_neg h]
      exact List.length_take_le _ _
  · refine ⟨List.insertionSort contribGE (contributionsOf i d),
      List.perm_insertionSort _ _, List.sorted_insertionSort _ _, ?_⟩
    rw [explain_doc]
    by_cases h : topn ≤ 0
    · rw [if_pos h]
      have : topn.toNat = 0 := Int.toNat_of_nonpos h
      rw [this]
      simp
    · rw [if_neg h]

/-- Witness for the amended C2 at concrete inputs. -/
theorem C2_witness :
    explain_doc [("aa", (1 : ℝ)), ("bb", 1)] [("aa", 1), ("bb", 1)] 0 = [] ∧
    (explain_doc [("aa", (1 : ℝ)), ("bb", 1)] [("aa", 1), ("bb", 1)] 2).length ≤ (2 : Int).toNat :=
  ⟨(C2_explain_doc _ _ 0).1 (by norm_num), (C2_explain_doc _ _ 2).2.1⟩

theorem scoreCandidates_pos (interest : TermVector)
    (cands : List (TermVector × Doc)) :
    ∀ x ∈ scoreCandidates interest cands, 0 < x.1 := by
  intro x hx
  rcases List.mem_filterMap.mp hx with ⟨p, _, hp⟩
  by_cases h : 0 < cosine interest p.1
  · rw [if_pos h] at hp
    rcases Option.some.inj hp with rfl
    exact h
  · rw [if_neg h] at hp
    exact absurd hp (by simp)

/-- C3: the ranking stage keeps exactly the candidates with positive
cosine score, and orders them by descending score with ties broken by
original position (the stable sort), witnessed by a sorted
permutation of the index-decorated scored list. -/
theorem C3_rank (interest : TermVector) (cands : List (TermVector × Doc)) :
    (∀ x ∈ rank interest cands, 0 < x.1) ∧
    (rank interest cands).Perm (scoreCandidates interest cands) ∧
    ∃ l : List (ℕ × (ℝ × Doc)),
      l.Perm (scoreCandidates interest cands).enum ∧
      List.Sorted rankRel l ∧
      rank interest cands = l.map Prod.snd := by
  have hperm : (rank interest cands).Perm (scoreCandidates interest cands) := by
    rw [rank]
    have h1 : ((List.insertionSort rankRel (scoreCandidates interest cands).enum).map
        Prod.snd).Perm ((scoreCandidates interest cands).enum.map Prod.snd) :=
      (List.perm_insertionSort _ _).map _
    rw [List.enum_map_snd] at h1
    exact h1
  refine ⟨?_, hperm, ?_⟩
  · intro x hx
    exact scoreCandidates_pos interest cands x (hperm.mem_iff.mp hx)
  · exact ⟨List.insertionSort rankRel (scoreCandidates interest cands).enum,
      List.perm_insertionSort _ _, List.sorted_insertionSort _ _, rfl⟩

/-- Witness for C3: a concrete positive-score candidate appears in the
ranking with positive score. -/
theorem C3_witness :
    0 < ((cosine [("x", 1)] [("x", 1)], emptyDoc) : ℝ × Doc).1 := by
  have hone : cosine [("x", 1)] [("x", 1)] = 1 :=
    cosine_self_eq_one [("x", 1)] (by simp [NodupKeys, keysOf])
      ⟨("x", 1), by simp, by norm_num⟩
  have hsc : scoreCandidates [("x", 1)] [([("x", 1)], emptyDoc)] =
      [(cosine [("x", 1)] [("x", 1)], emptyDoc)] := by
    rw [scoreCandidates]
    simp only [List.filterMap_cons, List.filterMap_nil]
    rw [if_pos (by rw [hone]; norm_num)]
  have hmem : (cosine [("x", 1)] [("x", 1)], emptyDoc) ∈
      rank [("x", 1)] [([("x", 1)], emptyDoc)] := by
    have := (C3_rank [("x", 1)] [([("x", 1)], emptyDoc)]).2.1
    rw [hsc] at this
    exact this.mem_iff.mpr (List.mem_singleton.mpr rfl)
  exact (C3_rank [("x", 1)] [([("x", 1)], emptyDoc)]).1 _ hmem

theorem explain_doc_of_pos (i d : TermVector) (topn : Int) (h : ¬ topn ≤ 0) :
    explain_doc i d topn =
      ((List.insertionSort contribGE (contributionsOf i d)).map Prod.snd).take topn.toNat := by
  rw [explain_doc, if_neg h]

/-- C8: the cluster label is the first explanation token when
clustering is enabled and one exists (and that token has maximal
contribution product), otherwise the host or "other"; the cluster
summary reports the member count and the top-5 tokens under the
frequency-descending, text-ascending order. -/
theorem C8_cluster (cluster_enabled : Bool) (why : List String) (host : String)
    (rows : List ResultRow) (name : String) (i v : TermVector) (topn : Int) :
    (cluster_enabled = true → why ≠ [] →
      clusterLabel cluster_enabled why host = why.headI) ∧
    (cluster_enabled = false →
      clusterLabel cluster_enabled why host = if host = "" then "other" else host) ∧
    (why = [] →
      clusterLabel cluster_enabled why host = if host = "" then "other" else host) ∧
    (explain_doc i v topn ≠ [] →
      ∃ c0 ∈ contributionsOf i v, c0.2 = (explain_doc i v topn).headI ∧
        ∀ c ∈ contributionsOf i v, c.1 ≤ c0.1) ∧
    ((summaryFor rows 5 name).1 = (rows.filter (fun r => r.cluster == name)).length ∧
      (summaryFor rows 5 name).2.length ≤ 5 ∧
      ∃ l : List String,
        l.Perm (dictKeys (clusterTokenOccurrences rows name)) ∧
        List.Sorted (tokLE (fun t => (clusterTokenOccurrences rows name).count t)) l ∧
        (summaryFor rows 5 name).2 = l.take 5 ∧
        ∀ t ∈ (summaryFor rows 5 name).2,
          ∀ u ∈ dictKeys (clusterTokenOccurrences rows name),
            u ∉ (summaryFor rows 5 name).2 →
              tokLE (fun t => (clusterTokenOccurrences rows name).count t) t u) := by
  haveI := contribGE_isTotal
  haveI := contribGE_isTrans
  haveI := tokLE_isTotal (fun t => (clusterTokenOccurrences rows name).count t)
  haveI := tokLE_isTrans (fun t => (clusterTokenOccurrences rows name).count t)
  refine ⟨?_, ?_, ?_, ?_, ?_, ?_, ?_⟩
  · intro he hw
    rw [clusterLabel, if_pos ⟨he, hw⟩]
  · intro he
    rw [clusterLabel, if_neg (by rintro ⟨h1, -⟩; rw [he] at h1; exact Bool.false_ne_true h1)]
  · intro hw
    rw [clusterLabel, if_neg (by rintro ⟨-, h2⟩; exact h2 hw)]
  · intro hne
    by_cases htop : topn ≤ 0
    · exact absurd (by rw [explain_doc, if_pos htop]) hne
    · rw [explain_doc_of_pos i v topn htop] at hne ⊢
      rcases hs : List.insertionSort contribGE (contributionsOf i v) with _ | ⟨hd, tl⟩
      · rw [hs] at hne; simp at hne
      · have hsorted := List.sorted_insertionSort contribGE (contributionsOf i v)
        have hperm := List.perm_insertionSort contribGE (contributionsOf i v)
        rw [hs] at hsorted hperm
        refine ⟨hd, hperm.subset (List.mem_cons_self _ _), ?_, ?_⟩
        · have hn : topn.toNat ≠ 0 := by omega
          rcases Nat.exists_eq_succ_of_ne_zero hn with ⟨m, hm⟩
          rw [List.map_cons, hm, List.take_succ_cons]
          rfl
        · intro c hc
          have hc' : c ∈ hd :: tl := hperm.mem_iff.mpr hc
          rcases List.mem_cons.mp hc' with rfl | hc''
          · exact le_refl _
          · rcases List.rel_of_sorted_cons hsorted c hc'' with h | ⟨h, -⟩
            · exact le_of_lt h
            · exact le_of_eq h
  · rfl
  · rw [summaryFor]
    exact List.length_take_le _ _
  · refine ⟨List.insertionSort (tokLE (fun t => (clusterTokenOccurrences rows name).count t))
      (dictKeys (clusterTokenOccurrences rows name)),
      List.perm_insertionSort _ _, List.sorted_insertionSort _ _, rfl, ?_⟩
    intro t ht u hu hunot
    set f := fun t => (clusterTokenOccurrences rows name).count t with hf
    set l := List.insertionSort (tokLE f) (dictKeys (clusterTokenOccurrences rows name)) with hl
    have hsorted : List.Sorted (tokLE f) l := List.sorted_insertionSort _ _
    have hul : u ∈ l :=
      (List.perm_insertionSort _ _).mem_iff.mpr hu
    have hsplit : l.take 5 ++ l.drop 5 = l := List.take_append_drop 5 l
    have hudrop : u ∈ l.drop 5 := by
      rcases List.mem_append.mp (hsplit ▸ hul) with h | h
      · exact absurd h (by simpa [summaryFor] using hunot)
      · exact h
    have htake : t ∈ l.take 5 := by simpa [summaryFor] using ht
    have hpw := (List.pairwise_append.mp (hsplit ▸ hsorted)).2.2
    exact hpw t htake u hudrop

/-- Witness for C8: a concrete enabled-clustering label. -/
theorem C8_witness :
    clusterLabel true ["rust", "safety"] "host" = (["rust", "safety"] : List String).headI :=
  (C8_cluster true ["rust", "safety"] "host" [] "x" [] [] 0).1 rfl (by decide)

/-- C6: each insufficient-data condition terminates the pipeline with
its own distinguishing error message, and a successful run never
carries an empty result list. -/
theorem C6_insufficient_data (docs0 : List Doc) (keep : Doc → Bool) (args : Args)
    (now : Int) :
    (filteredDocs docs0 keep args = [] →
      pipeline docs0 keep args now = Except.error "No history rows after filtering.") ∧
    (filteredDocs docs0 keep args ≠ [] →
      recentDocs (filteredDocs docs0 keep args) args now = [] →
      pipeline docs0 keep args now =
        Except.error "Not enough recent history to build an interest profile.") ∧
    (filteredDocs docs0 keep args ≠ [] →
      recentDocs (filteredDocs docs0 keep args) args now ≠ [] →
      resultsOf (filteredDocs docs0 keep args) args now = [] →
      pipeline docs0 keep args now = Except.error "No recommendations found.") ∧
    (∀ out, pipeline docs0 keep args now = Except.ok out → out ≠ []) ∧
    (("No history rows after filtering." : String) ≠
        "Not enough recent history to build an interest profile." ∧
      ("No history rows after filtering." : String) ≠ "No recommendations found." ∧
      ("Not enough recent history to build an interest profile." : String) ≠
        "No recommendations found.") := by
  refine ⟨?_, ?_, ?_, ?_, by decide, by decide, by decide⟩
  · intro h
    rw [pipeline]
    simp only [h, List.isEmpty_nil, if_true]
  · intro h1 h2
    rw [pipeline]
    rw [if_neg (by simpa [List.isEmpty_iff] using h1),
      if_pos (by simpa [List.isEmpty_iff] using h2)]
  · intro h1 h2 h3
    rw [pipeline]
    rw [if_neg (by simpa [List.isEmpty_iff] using h1),
      if_neg (by simpa [List.isEmpty_iff] using h2),
      if_pos (by simpa [List.isEmpty_iff] using h3)]
  · intro out hout hempty
    subst hempty
    rw [pipeline] at hout
    by_cases h1 : (filteredDocs docs0 keep args).isEmpty
    · rw [if_pos h1] at hout; exact absurd hout (by simp)
    · rw [if_neg h1] at hout
      by_cases h2 : (recentDocs (filteredDocs docs0 keep args) args now).isEmpty
      · rw [if_pos h2] at hout; exact absurd hout (by simp)
      · rw [if_neg h2] at hout
        by_cases h3 : (resultsOf (filteredDocs docs0 keep args) args now).isEmpty
        · rw [if_pos h3] at hout; exact absurd hout (by simp)
        · rw [if_neg h3] at hout
          have := Except.ok.inj hout
          rw [List.isEmpty_iff] at h3
          exact h3 (List.map_eq_nil_iff.mp this)

/-- Witness for C6 on the empty document set. -/
theorem C6_witness :
    pipeline [] (fun _ => true) defaultArgs 0 =
      Except.error "No history rows after filtering." :=
  (C6_insufficient_data [] (fun _ => true) defaultArgs 0).1 rfl

/-- C5: the pipeline is a pure function of its input documents,
filter predicate, parameters and the explicitly passed now timestamp:
two runs with equal inputs and equal now produce equal ranked output. -/
theorem C5_deterministic (docs0 : List Doc) (keep : Doc → Bool) (args : Args)
    (now now' : Int) (h : now = now') :
    pipeline docs0 keep args now = pipeline docs0 keep args now' := by
  rw [h]

/-- Witness for C5 at a concrete input run twice. -/
theorem C5_witness :
    pipeline [] (fun _ => true) defaultArgs 7 = pipeline [] (fun _ => true) defaultArgs 7 :=
  C5_deterministic [] (fun _ => true) defaultArgs 7 7 rfl


end Recommend

